import Mathlib

/-!
Verification development for the tile utilities of `ml_tm_utils_pub`
(file `ml_tm_utils_pub/utils_geodata.py`).

The Python code manipulates slippy-map tiles through the `pygeotile`
library: a tile is a triple of integers `(tms_x, tms_y, zoom)` and
`Tile.from_tms` asserts `0 <= tms_x <= 2**zoom - 1` and
`0 <= tms_y <= 2**zoom - 1` before constructing the tile.  The functions
under study are

* `_get_quadrant_tiles` - the four children of a tile at zoom + 1;
* `get_tile_pyramid`    - iterative depth-first expansion of a tile into
  all leaf tiles at a maximum zoom, serialized with `'{z}-{x}-{y}'`;
* `get_pixel_area`      - area per pixel for a latitude and zoom;
* `get_stripped_geojson_tasks` - canonical string for a task collection.

Python exceptions are modelled with `Except String`; the unbounded
`while` loop of `get_tile_pyramid` is modelled with an explicit fuel
parameter (`none` meaning that the fuel ran out), together with a proof
that a computable fuel bound suffices, which is the termination theorem
of the loop.
-/

/-- A `pygeotile` tile: TMS x and y indices and a zoom level.  Python
integers are unbounded, so the fields are `Int`. -/
structure Tile where
  tms_x : Int
  tms_y : Int
  zoom : Int
deriving DecidableEq, Repr

/-- The range assertion of `pygeotile`'s `Tile.from_tms` for one
coordinate, literally: `0 <= v <= 2**zoom - 1`.  In Python `2**zoom` is
an exact dyadic rational also when `zoom` is negative, so the condition
is stated over `ℚ`. -/
def tmsAssert (v zoom : Int) : Prop :=
  (0 : ℚ) ≤ (v : ℚ) ∧ (v : ℚ) ≤ (2 : ℚ) ^ zoom - 1

/-- Executable form of `tmsAssert` (for a negative zoom the upper bound
`2**zoom - 1` lies in `(-1, 0)`, so no integer passes); the lemma
`tmsCheck_iff_assert` proves the equivalence. -/
def tmsCheck (v zoom : Int) : Bool :=
  decide (0 ≤ zoom) && decide (0 ≤ v) && decide (v < ((2 ^ zoom.toNat : Nat) : Int))

/-- `pygeotile.tile.Tile.from_tms`: asserts the TMS X range, then the
TMS Y range, then builds the tile.  A failed assertion is an error. -/
def Tile.from_tms (tms_x tms_y zoom : Int) : Except String Tile :=
  if tmsCheck tms_x zoom then
    if tmsCheck tms_y zoom then
      Except.ok ⟨tms_x, tms_y, zoom⟩
    else
      Except.error "TMS Y needs to be a value between 0 and (2^zoom) -1."
  else
    Except.error "TMS X needs to be a value between 0 and (2^zoom) -1."

/-- `_get_quadrant_tiles` from `utils_geodata.py`: the upper-left corner
is `(tile.tms[0] * 2, tile.tms[1] * 2)` and the four children UL, LL,
UR, LR are built with `Tile.from_tms` at `tile.zoom + 1`, in that
order. -/
def get_quadrant_tiles (tile : Tile) : Except String (List Tile) := do
  let ul ← Tile.from_tms (tile.tms_x * 2) (tile.tms_y * 2) (tile.zoom + 1)
  let ll ← Tile.from_tms (tile.tms_x * 2) (tile.tms_y * 2 + 1) (tile.zoom + 1)
  let ur ← Tile.from_tms (tile.tms_x * 2 + 1) (tile.tms_y * 2) (tile.zoom + 1)
  let lr ← Tile.from_tms (tile.tms_x * 2 + 1) (tile.tms_y * 2 + 1) (tile.zoom + 1)
  return [ul, ll, ur, lr]

/-- The four quadrant tiles as a pure list (the tiles that
`get_quadrant_tiles` produces when all four constructions succeed), in
source order UL, LL, UR, LR. -/
def quadTiles (t : Tile) : List Tile :=
  [⟨t.tms_x * 2, t.tms_y * 2, t.zoom + 1⟩,
   ⟨t.tms_x * 2, t.tms_y * 2 + 1, t.zoom + 1⟩,
   ⟨t.tms_x * 2 + 1, t.tms_y * 2, t.zoom + 1⟩,
   ⟨t.tms_x * 2 + 1, t.tms_y * 2 + 1, t.zoom + 1⟩]

/-- The default serialization `'{z}-{x}-{y}'.format(...)` of
`get_tile_pyramid`: decimal renderings joined by dashes. -/
def tileFormat (z x y : Int) : String :=
  toString z ++ "-" ++ toString x ++ "-" ++ toString y

/-- The `while not stack.empty()` loop of `get_tile_pyramid`, with the
stack as a list whose head is the top.  A popped tile whose zoom is
`>= max_zoom` is serialized and appended to the accumulator; otherwise
its quadrant tiles are pushed (pushing UL, LL, UR, LR in order means the
reversed list is consed onto the stack).  `fuel` bounds the number of
iterations; `none` means the bound was hit. -/
def pyramidLoop : Nat → Int → List Tile → List String →
    Option (Except String (List String))
  | _, _, [], acc => some (Except.ok acc)
  | 0, _, _ :: _, _ => none
  | fuel + 1, maxZoom, t :: rest, acc =>
    if maxZoom ≤ t.zoom then
      pyramidLoop fuel maxZoom rest (acc ++ [tileFormat t.zoom t.tms_x t.tms_y])
    else
      match get_quadrant_tiles t with
      | Except.error e => some (Except.error e)
      | Except.ok children => pyramidLoop fuel maxZoom (children.reverse ++ rest) acc

/-- Fuel that will be proved sufficient for `pyramidLoop` started on a
single tile at zoom `z`. -/
def pyrFuel (maxZoom z : Int) : Nat :=
  5 ^ (maxZoom - z).toNat

/-- `get_tile_pyramid` from `utils_geodata.py` with the default return
format `'{z}-{x}-{y}'`: build the top tile with `Tile.from_tms` (whose
assertion error propagates), then run the depth-first loop. -/
def get_tile_pyramid (x y z maxZoom : Int) : Option (Except String (List String)) :=
  match Tile.from_tms x y z with
  | Except.error e => some (Except.error e)
  | Except.ok t => pyramidLoop (pyrFuel maxZoom t.zoom) maxZoom [t] []

/-- Validity of a tile, as an integer predicate: the conjunction of the
two `from_tms` assertions (which force `0 ≤ zoom`). -/
def ValidTile (t : Tile) : Prop :=
  0 ≤ t.zoom ∧ 0 ≤ t.tms_x ∧ t.tms_x < ((2 ^ t.zoom.toNat : Nat) : Int) ∧
    0 ≤ t.tms_y ∧ t.tms_y < ((2 ^ t.zoom.toNat : Nat) : Int)

instance (t : Tile) : Decidable (ValidTile t) := by
  unfold ValidTile; infer_instance

instance {ε α : Type} [DecidableEq ε] [DecidableEq α] : DecidableEq (Except ε α) := fun a b =>
  match a, b with
  | Except.error e, Except.error f =>
    if h : e = f then isTrue (by rw [h]) else isFalse (fun c => by cases c; exact h rfl)
  | Except.ok u, Except.ok v =>
    if h : u = v then isTrue (by rw [h]) else isFalse (fun c => by cases c; exact h rfl)
  | Except.error _, Except.ok _ => isFalse (fun c => by cases c)
  | Except.ok _, Except.error _ => isFalse (fun c => by cases c)

/-- Reference recursion for the pyramid: a tile at or beyond the
maximum zoom is a single leaf; otherwise the four quadrant tiles are
expanded in LIFO pop order LR, UR, LL, UL. -/
def expandT (maxZoom : Int) (t : Tile) : List String :=
  if maxZoom ≤ t.zoom then
    [tileFormat t.zoom t.tms_x t.tms_y]
  else
    expandT maxZoom ⟨t.tms_x * 2 + 1, t.tms_y * 2 + 1, t.zoom + 1⟩ ++
    expandT maxZoom ⟨t.tms_x * 2 + 1, t.tms_y * 2, t.zoom + 1⟩ ++
    expandT maxZoom ⟨t.tms_x * 2, t.tms_y * 2 + 1, t.zoom + 1⟩ ++
    expandT maxZoom ⟨t.tms_x * 2, t.tms_y * 2, t.zoom + 1⟩
termination_by (maxZoom - t.zoom).toNat
decreasing_by all_goals omega

/-- Termination measure of a stack: each tile weighs
`5 ^ (maxZoom - zoom)` (clamped at zero). -/
def stackMeasure (m : Int) (stack : List Tile) : Nat :=
  (stack.map fun t => 5 ^ (m - t.zoom).toNat).sum

/-- The characters of the decimal rendering of a natural number:
`"0"` for zero, otherwise the base-10 digits, most significant first. -/
def reprChars (n : Nat) : List Char :=
  if n = 0 then ['0'] else ((Nat.digits 10 n).reverse).map Nat.digitChar

/-- Python's `str.split('-')` on a character list: splits on every dash,
keeping empty groups (`''.split('-') == ['']`). -/
def split_dash : List Char → List (List Char)
  | [] => [[]]
  | c :: cs =>
    if c = '-' then [] :: split_dash cs
    else
      match split_dash cs with
      | [] => [[c]]
      | g :: gs => (c :: g) :: gs

/-- Accumulator pass of decimal parsing: consume digits left to right,
fail on a non-digit. -/
def parseDigitsFrom : List Char → Nat → Option Nat
  | [], acc => some acc
  | c :: cs, acc =>
    if c.isDigit then parseDigitsFrom cs (acc * 10 + (c.toNat - 48)) else none

/-- Parse a non-empty all-digit character list as a natural number. -/
def parseDigits (cs : List Char) : Option Nat :=
  if cs.isEmpty then none else parseDigitsFrom cs 0

/-- Python's `int()` on a character list, restricted to an optional
leading minus sign followed by decimal digits (`int()` of anything else
raises, modelled as `none`). -/
def python_int : List Char → Option Int
  | [] => none
  | c :: cs =>
    if c = '-' then (parseDigits cs).map (fun n => -(n : Int))
    else (parseDigits (c :: cs)).map (fun n => (n : Int))

/-- The consumer parse in `cog_windowed_read`:
`z, x, y = [int(val) for val in tile_ind.split('-')]` - split on dashes,
require exactly three groups, parse each as an integer, in the fixed
order zoom, x, y. -/
def parse_tile_ind (s : String) : Option (Int × Int × Int) :=
  match split_dash s.data with
  | [a, b, c] =>
    match python_int a, python_int b, python_int c with
    | some z, some x, some y => some (z, x, y)
    | _, _, _ => none
  | _ => none

/-- `get_pixel_area` from `utils_geodata.py`: validate latitude in
`[-90, 90]` then zoom in `[0, 19]` (the `isinstance(zoom, int)` check is
subsumed by the `Int` type of `zoom`), else return
`(156543.03 * cos(deg2rad(latitude)) / 2 ** zoom) ** 2`.  Latitude is a
`ℚ` input; the value is computed in `ℝ` (exact-real model of the float
computation). -/
noncomputable def get_pixel_area (latitude : ℚ) (zoom : Int) : Except String ℝ :=
  if latitude < -90 ∨ latitude > 90 then
    Except.error "latitude outside bounds of [-90, 90]"
  else if zoom < 0 ∨ zoom > 19 then
    Except.error "zoom outside bounds of [0, 19]"
  else
    Except.ok ((156543.03 * Real.cos ((latitude : ℝ) * Real.pi / 180) / 2 ^ zoom.toNat) ^ 2)

/-- A task of a task-collection document after JSON parsing, at the
boundary of `get_stripped_geojson_tasks`: the `str()` renderings of
`task['properties']['taskId']` and of `task['geometry']`. -/
structure TmTask where
  taskId : String
  geometry : String
deriving DecidableEq, Repr

/-- Single-quote character (39), written by code point to keep source
quoting simple. -/
def squote : Char := Char.ofNat 39

/-- Double-quote character (34). -/
def dquote : Char := Char.ofNat 34

/-- Python's `.replace("'", '"')` on a rendered value. -/
def pyRepl (s : String) : String :=
  ⟨s.data.map (fun c => if c = squote then dquote else c)⟩

/-- One stripped task line:
`'{{"taskID": {}, "geometry": {}}}'.format(...)` with the quote
replacement applied to both fields. -/
def strip_task (t : TmTask) : String :=
  "\x7b\"taskID\": " ++ pyRepl t.taskId ++ ", \"geometry\": " ++ pyRepl t.geometry ++ "\x7d"

/-- `get_stripped_geojson_tasks` on a parsed document: build one line
per task, sort the lines (Python's `sorted`, ascending lexicographic),
join with newlines. -/
def get_stripped_geojson_tasks (tasks : List TmTask) : String :=
  String.intercalate "\n" ((tasks.map strip_task).mergeSort (fun a b => a ≤ b))

example : tileFormat 18 23 1259 = "18-23-1259" := by rfl

example : get_tile_pyramid 5 314 16 17 =
    some (Except.ok ["17-11-629", "17-11-628", "17-10-629", "17-10-628"]) := by
  decide

/-- The executable check agrees with the literal Python assertion. -/
lemma tmsCheck_iff_assert (v z : Int) : tmsCheck v z = true ↔ tmsAssert v z := by
  unfold tmsCheck tmsAssert
  simp only [Bool.and_eq_true, decide_eq_true_eq]
  constructor
  · rintro ⟨⟨hz, hv⟩, hlt⟩
    refine ⟨by exact_mod_cast hv, ?_⟩
    have hzz : (z.toNat : ℤ) = z := Int.toNat_of_nonneg hz
    have h2 : (2 : ℚ) ^ z = (2 : ℚ) ^ (z.toNat : ℕ) := by
      conv_lhs => rw [← hzz]
      rw [zpow_natCast]
    rw [h2]
    have h3 : (v : ℚ) + 1 ≤ ((2 ^ z.toNat : Nat) : ℚ) := by
      have h4 : v + 1 ≤ ((2 ^ z.toNat : Nat) : ℤ) := by omega
      exact_mod_cast h4
    push_cast at h3 ⊢
    linarith
  · rintro ⟨hv0, hle⟩
    have hv : 0 ≤ v := by exact_mod_cast hv0
    have hz : 0 ≤ z := by
      by_contra hneg
      push_neg at hneg
      have h1 : (2 : ℚ) ^ z < (2 : ℚ) ^ (0 : ℤ) :=
        zpow_lt_zpow_right₀ one_lt_two (by omega)
      rw [zpow_zero] at h1
      have h5 : (v : ℚ) < 0 := by linarith
      have h6 : (0 : ℚ) ≤ (v : ℚ) := by exact_mod_cast hv
      linarith
    refine ⟨⟨hz, hv⟩, ?_⟩
    have hzz : (z.toNat : ℤ) = z := Int.toNat_of_nonneg hz
    have h2 : (2 : ℚ) ^ z = (2 : ℚ) ^ (z.toNat : ℕ) := by
      conv_lhs => rw [← hzz]
      rw [zpow_natCast]
    rw [h2] at hle
    have h7 : (v : ℚ) ≤ ((2 ^ z.toNat : Nat) : ℚ) - 1 := by push_cast at hle ⊢; linarith
    have h8 : (v : ℤ) ≤ ((2 ^ z.toNat : Nat) : ℤ) - 1 := by exact_mod_cast h7
    omega

/-- `ValidTile` is exactly the conjunction of the two `from_tms` checks. -/
lemma validTile_iff_checks (x y z : Int) :
    ValidTile ⟨x, y, z⟩ ↔ (tmsCheck x z = true ∧ tmsCheck y z = true) := by
  unfold ValidTile tmsCheck
  simp only [Bool.and_eq_true, decide_eq_true_eq]
  constructor
  · rintro ⟨hz, hx0, hx1, hy0, hy1⟩
    exact ⟨⟨⟨hz, hx0⟩, hx1⟩, ⟨⟨hz, hy0⟩, hy1⟩⟩
  · rintro ⟨⟨⟨hz, hx0⟩, hx1⟩, ⟨⟨_, hy0⟩, hy1⟩⟩
    exact ⟨hz, hx0, hx1, hy0, hy1⟩

/-- On a valid triple, `from_tms` succeeds and returns the tile as is. -/
lemma from_tms_ok {x y z : Int} (h : ValidTile ⟨x, y, z⟩) :
    Tile.from_tms x y z = Except.ok ⟨x, y, z⟩ := by
  rw [validTile_iff_checks] at h
  unfold Tile.from_tms
  rw [h.1, h.2]
  rfl

/-- On an invalid triple, `from_tms` raises (one of the two assertion
messages). -/
lemma from_tms_error {x y z : Int} (h : ¬ ValidTile ⟨x, y, z⟩) :
    ∃ e, Tile.from_tms x y z = Except.error e := by
  rw [validTile_iff_checks] at h
  unfold Tile.from_tms
  by_cases hx : tmsCheck x z = true
  · have hy : ¬ tmsCheck y z = true := fun hy => h ⟨hx, hy⟩
    rw [hx]
    simp [hy]
  · simp [hx]

/-- The bound of the next zoom level doubles. -/
lemma pow_zoom_succ {z : Int} (hz : 0 ≤ z) :
    ((2 ^ (z + 1).toNat : Nat) : Int) = ((2 ^ z.toNat : Nat) : Int) * 2 := by
  have hn : (z + 1).toNat = z.toNat + 1 := by omega
  rw [hn, pow_succ]
  push_cast
  ring

/-- `ValidTile` on a literal triple, unfolded. -/
lemma validTile_mk {x y z : Int} :
    ValidTile ⟨x, y, z⟩ ↔
      0 ≤ z ∧ 0 ≤ x ∧ x < ((2 ^ z.toNat : Nat) : Int) ∧
        0 ≤ y ∧ y < ((2 ^ z.toNat : Nat) : Int) :=
  Iff.rfl

/-- Children of a valid tile are valid. -/
lemma quadTiles_valid {t : Tile} (h : ValidTile t) :
    ∀ c ∈ quadTiles t, ValidTile c := by
  obtain ⟨hz, hx0, hx1, hy0, hy1⟩ := h
  have hb := pow_zoom_succ hz
  intro c hc
  simp only [quadTiles, List.mem_cons, List.not_mem_nil, or_false] at hc
  rcases hc with rfl | rfl | rfl | rfl <;>
    · rw [validTile_mk, hb]
      obtain ⟨q, hq⟩ : ∃ q, ((2 ^ t.zoom.toNat : Nat) : Int) = q := ⟨_, rfl⟩
      rw [hq] at hx1 hy1 ⊢
      omega

/-- On a valid tile, `get_quadrant_tiles` succeeds with the four
quadrant tiles. -/
lemma get_quadrant_tiles_ok {t : Tile} (h : ValidTile t) :
    get_quadrant_tiles t = Except.ok (quadTiles t) := by
  have hv := quadTiles_valid h
  simp only [quadTiles, List.mem_cons, List.not_mem_nil, or_false] at hv
  unfold get_quadrant_tiles
  rw [from_tms_ok (hv _ (Or.inl rfl)), from_tms_ok (hv _ (Or.inr (Or.inl rfl))),
    from_tms_ok (hv _ (Or.inr (Or.inr (Or.inl rfl)))),
    from_tms_ok (hv _ (Or.inr (Or.inr (Or.inr rfl))))]
  rfl

/-- Unfolding: the loop on an empty stack returns the accumulator. -/
lemma pyramidLoop_nil {fuel : Nat} {m : Int} {acc : List String} :
    pyramidLoop fuel m [] acc = some (Except.ok acc) := by
  cases fuel <;> rfl

/-- Unfolding: popping a tile at or beyond the maximum zoom serializes it. -/
lemma pyramidLoop_leaf {n : Nat} {m : Int} {t : Tile} {rest : List Tile}
    {acc : List String} (h : m ≤ t.zoom) :
    pyramidLoop (n + 1) m (t :: rest) acc =
      pyramidLoop n m rest (acc ++ [tileFormat t.zoom t.tms_x t.tms_y]) := by
  simp [pyramidLoop, h]

/-- Unfolding: popping a tile below the maximum zoom pushes its children. -/
lemma pyramidLoop_node {n : Nat} {m : Int} {t : Tile} {rest : List Tile}
    {acc : List String} {cs : List Tile} (h : ¬ m ≤ t.zoom)
    (hq : get_quadrant_tiles t = Except.ok cs) :
    pyramidLoop (n + 1) m (t :: rest) acc =
      pyramidLoop n m (cs.reverse ++ rest) acc := by
  simp [pyramidLoop, h, hq]

lemma stackMeasure_cons {m : Int} {t : Tile} {rest : List Tile} :
    stackMeasure m (t :: rest) = 5 ^ (m - t.zoom).toNat + stackMeasure m rest := by
  simp [stackMeasure]

/-- A node expansion equals the concatenation of the reversed children
expansions. -/
lemma expandT_node {m : Int} {t : Tile} (h : ¬ m ≤ t.zoom) :
    expandT m t = ((quadTiles t).reverse).flatMap (expandT m) := by
  rw [expandT]
  simp [h, quadTiles, List.append_assoc]

/-- A leaf expansion is the single serialized tile. -/
lemma expandT_leaf {m : Int} {t : Tile} (h : m ≤ t.zoom) :
    expandT m t = [tileFormat t.zoom t.tms_x t.tms_y] := by
  rw [expandT]
  simp [h]

/-- Main loop invariant: with enough fuel and a stack of valid tiles the
loop returns the accumulator followed by the expansion of every stack
entry, in order. -/
lemma pyramidLoop_eq (m : Int) :
    ∀ (fuel : Nat) (stack : List Tile) (acc : List String),
      (∀ t ∈ stack, ValidTile t) → stackMeasure m stack ≤ fuel →
      pyramidLoop fuel m stack acc =
        some (Except.ok (acc ++ stack.flatMap (expandT m))) := by
  intro fuel
  induction fuel with
  | zero =>
    intro stack acc hv hm
    cases stack with
    | nil => simp [pyramidLoop_nil]
    | cons t rest =>
      exfalso
      rw [stackMeasure_cons] at hm
      have h1 : 0 < 5 ^ (m - t.zoom).toNat := pow_pos (by norm_num) _
      omega
  | succ n ih =>
    intro stack acc hv hm
    cases stack with
    | nil => simp [pyramidLoop_nil]
    | cons t rest =>
      have hvt : ValidTile t := hv t (List.mem_cons_self t rest)
      have hvrest : ∀ u ∈ rest, ValidTile u := fun u hu => hv u (List.mem_cons_of_mem _ hu)
      rw [stackMeasure_cons] at hm
      by_cases hz : m ≤ t.zoom
      · have hd0 : (m - t.zoom).toNat = 0 := by omega
        rw [pyramidLoop_leaf hz,
          ih rest _ hvrest (by rw [hd0] at hm; omega)]
        rw [List.flatMap_cons, expandT_leaf hz]
        simp
      · obtain ⟨e, he⟩ : ∃ e, (m - t.zoom).toNat = e + 1 :=
          ⟨(m - t.zoom).toNat - 1, by omega⟩
        have hce : (m - (t.zoom + 1)).toNat = e := by omega
        rw [pyramidLoop_node hz (get_quadrant_tiles_ok hvt)]
        have hvnew : ∀ u ∈ (quadTiles t).reverse ++ rest, ValidTile u := by
          intro u hu
          rcases List.mem_append.mp hu with hu | hu
          · exact quadTiles_valid hvt u (List.mem_reverse.mp hu)
          · exact hvrest u hu
        have hmnew : stackMeasure m ((quadTiles t).reverse ++ rest) ≤ n := by
          have hsum : stackMeasure m ((quadTiles t).reverse ++ rest) =
              4 * 5 ^ e + stackMeasure m rest := by
            simp [stackMeasure, quadTiles, hce]
            ring
          rw [hsum]
          rw [he, pow_succ] at hm
          have h5 : 1 ≤ 5 ^ e := Nat.one_le_pow _ _ (by norm_num)
          omega
        rw [ih _ _ hvnew hmnew]
        rw [List.flatMap_append, List.flatMap_cons, expandT_node hz]

/-- On a valid top tile, `get_tile_pyramid` terminates within its fuel
and returns the reference expansion. -/
lemma get_tile_pyramid_ok {x y z : Int} (m : Int) (h : ValidTile ⟨x, y, z⟩) :
    get_tile_pyramid x y z m = some (Except.ok (expandT m ⟨x, y, z⟩)) := by
  unfold get_tile_pyramid
  rw [from_tms_ok h]
  have hloop := pyramidLoop_eq m (pyrFuel m z) [⟨x, y, z⟩] []
    (by intro u hu; simp only [List.mem_singleton] at hu; subst hu; exact h)
    (by simp [stackMeasure, pyrFuel])
  simpa using hloop

/-- Unfolding: a node expansion as the explicit four appends. -/
lemma expandT_node' {m : Int} {t : Tile} (h : ¬ m ≤ t.zoom) :
    expandT m t =
      expandT m ⟨t.tms_x * 2 + 1, t.tms_y * 2 + 1, t.zoom + 1⟩ ++
      expandT m ⟨t.tms_x * 2 + 1, t.tms_y * 2, t.zoom + 1⟩ ++
      expandT m ⟨t.tms_x * 2, t.tms_y * 2 + 1, t.zoom + 1⟩ ++
      expandT m ⟨t.tms_x * 2, t.tms_y * 2, t.zoom + 1⟩ := by
  rw [expandT]
  simp [h]

/-- The expansion of a tile `d` zoom levels above the maximum has
exactly `4 ^ d` entries. -/
lemma expandT_length (m : Int) :
    ∀ (d : Nat) (t : Tile), (m - t.zoom).toNat = d →
      (expandT m t).length = 4 ^ d := by
  intro d
  induction d with
  | zero =>
    intro t h
    rw [expandT_leaf (by omega)]
    simp
  | succ e ih =>
    intro t h
    have hz : ¬ m ≤ t.zoom := by omega
    rw [expandT_node' hz]
    simp only [List.length_append]
    rw [ih ⟨t.tms_x * 2 + 1, t.tms_y * 2 + 1, t.zoom + 1⟩
        ((by omega : (m - (t.zoom + 1)).toNat = e)),
      ih ⟨t.tms_x * 2 + 1, t.tms_y * 2, t.zoom + 1⟩
        ((by omega : (m - (t.zoom + 1)).toNat = e)),
      ih ⟨t.tms_x * 2, t.tms_y * 2 + 1, t.zoom + 1⟩
        ((by omega : (m - (t.zoom + 1)).toNat = e)),
      ih ⟨t.tms_x * 2, t.tms_y * 2, t.zoom + 1⟩
        ((by omega : (m - (t.zoom + 1)).toNat = e))]
    rw [pow_succ]
    ring

/-- Membership in an expansion: exactly the serializations of the
`2 ^ d × 2 ^ d` block of descendants `d` levels below the tile. -/
lemma expandT_mem (m : Int) :
    ∀ (d : Nat) (t : Tile) (s : String), (m - t.zoom).toNat = d →
      (s ∈ expandT m t ↔ ∃ i j : Nat, i < 2 ^ d ∧ j < 2 ^ d ∧
        s = tileFormat (t.zoom + (d : Int))
          (t.tms_x * ((2 ^ d : Nat) : Int) + (i : Int))
          (t.tms_y * ((2 ^ d : Nat) : Int) + (j : Int))) := by
  intro d
  induction d with
  | zero =>
    intro t s h
    rw [expandT_leaf (by omega)]
    simp only [List.mem_singleton]
    constructor
    · intro hs
      refine ⟨0, 0, by norm_num, by norm_num, ?_⟩
      rw [hs]
      congr 1 <;> push_cast <;> ring
    · rintro ⟨i, j, hi, hj, hs⟩
      have hi0 : i = 0 := by omega
      have hj0 : j = 0 := by omega
      subst hi0; subst hj0
      rw [hs]
      congr 1 <;> push_cast <;> ring
  | succ e ih =>
    intro t s h
    have hz : ¬ m ≤ t.zoom := by omega
    have hce : (m - (t.zoom + 1)).toNat = e := by omega
    rw [expandT_node' hz]
    constructor
    · intro hs
      have hmem : s ∈ expandT m ⟨t.tms_x * 2 + 1, t.tms_y * 2 + 1, t.zoom + 1⟩ ∨
          s ∈ expandT m ⟨t.tms_x * 2 + 1, t.tms_y * 2, t.zoom + 1⟩ ∨
          s ∈ expandT m ⟨t.tms_x * 2, t.tms_y * 2 + 1, t.zoom + 1⟩ ∨
          s ∈ expandT m ⟨t.tms_x * 2, t.tms_y * 2, t.zoom + 1⟩ := by
        rcases List.mem_append.mp hs with hs | hs
        · rcases List.mem_append.mp hs with hs | hs
          · rcases List.mem_append.mp hs with hs | hs
            · exact Or.inl hs
            · exact Or.inr (Or.inl hs)
          · exact Or.inr (Or.inr (Or.inl hs))
        · exact Or.inr (Or.inr (Or.inr hs))
      rcases hmem with hs | hs | hs | hs <;>
        obtain ⟨i, j, hi, hj, hfmt⟩ := (ih _ s hce).mp hs
      · refine ⟨2 ^ e + i, 2 ^ e + j, by omega, by omega, ?_⟩
        rw [hfmt]
        congr 1 <;> push_cast [pow_succ] <;> ring
      · refine ⟨2 ^ e + i, j, by omega, by omega, ?_⟩
        rw [hfmt]
        congr 1 <;> push_cast [pow_succ] <;> ring
      · refine ⟨i, 2 ^ e + j, by omega, by omega, ?_⟩
        rw [hfmt]
        congr 1 <;> push_cast [pow_succ] <;> ring
      · refine ⟨i, j, by omega, by omega, ?_⟩
        rw [hfmt]
        congr 1 <;> push_cast [pow_succ] <;> ring
    · rintro ⟨I, J, hI, hJ, hfmt⟩
      by_cases hIa : 2 ^ e ≤ I <;> by_cases hJb : 2 ^ e ≤ J
      · refine List.mem_append.mpr (Or.inl (List.mem_append.mpr (Or.inl
          (List.mem_append.mpr (Or.inl ?_)))))
        refine (ih _ s hce).mpr ⟨I - 2 ^ e, J - 2 ^ e, by omega, by omega, ?_⟩
        rw [hfmt]
        congr 1 <;> push_cast [pow_succ, Nat.cast_sub hIa, Nat.cast_sub hJb] <;> ring
      · refine List.mem_append.mpr (Or.inl (List.mem_append.mpr (Or.inl
          (List.mem_append.mpr (Or.inr ?_)))))
        refine (ih _ s hce).mpr ⟨I - 2 ^ e, J, by omega, by omega, ?_⟩
        rw [hfmt]
        congr 1 <;> push_cast [pow_succ, Nat.cast_sub hIa] <;> ring
      · refine List.mem_append.mpr (Or.inl (List.mem_append.mpr (Or.inr ?_)))
        refine (ih _ s hce).mpr ⟨I, J - 2 ^ e, by omega, by omega, ?_⟩
        rw [hfmt]
        congr 1 <;> push_cast [pow_succ, Nat.cast_sub hJb] <;> ring
      · refine List.mem_append.mpr (Or.inr ?_)
        refine (ih _ s hce).mpr ⟨I, J, by omega, by omega, ?_⟩
        rw [hfmt]
        congr 1 <;> push_cast [pow_succ] <;> ring

/-- Correctness of the core decimal printer for positive inputs with
enough fuel. -/
lemma toDigitsCore_eq :
    ∀ (fuel n : Nat) (ds : List Char), 0 < n → n < 10 ^ fuel →
      Nat.toDigitsCore 10 fuel n ds =
        ((Nat.digits 10 n).reverse).map Nat.digitChar ++ ds := by
  intro fuel
  induction fuel with
  | zero =>
    intro n ds h0 h1
    rw [pow_zero] at h1
    omega
  | succ f ih =>
    intro n ds h0 h1
    rw [Nat.toDigitsCore]
    by_cases hq : n / 10 = 0
    · simp only [hq, if_true, if_pos]
      rw [Nat.digits_def' (by norm_num : 1 < 10) h0, hq]
      simp
    · simp only [hq, if_false, if_neg]
      have hdiv : n / 10 < 10 ^ f := by
        rw [Nat.div_lt_iff_lt_mul (by norm_num : 0 < 10), ← pow_succ]
        exact h1
      rw [ih (n / 10) _ (Nat.pos_of_ne_zero hq) hdiv]
      rw [Nat.digits_def' (by norm_num : 1 < 10) h0]
      simp

/-- The data of `Nat.repr` is `reprChars`. -/
lemma repr_data (n : Nat) : (Nat.repr n).data = reprChars n := by
  by_cases h : n = 0
  · subst h
    rfl
  · unfold Nat.repr Nat.toDigits reprChars
    rw [if_neg h]
    have hlt : n < 10 ^ (n + 1) :=
      lt_of_lt_of_le (Nat.lt_pow_self (by norm_num) n)
        (Nat.pow_le_pow_right (by norm_num) (by omega))
    rw [toDigitsCore_eq (n + 1) n [] (Nat.pos_of_ne_zero h) hlt]
    simp [List.asString]

/-- `digitChar` of a digit is an ASCII digit character. -/
lemma digitChar_isDigit {d : Nat} (h : d < 10) : (Nat.digitChar d).isDigit = true := by
  interval_cases d <;> rfl

/-- `digitChar` of a digit decodes back to the digit. -/
lemma digitChar_toNat {d : Nat} (h : d < 10) : (Nat.digitChar d).toNat - 48 = d := by
  interval_cases d <;> rfl

/-- Every character of a decimal rendering is a digit. -/
lemma reprChars_isDigit (n : Nat) : ∀ c ∈ reprChars n, c.isDigit = true := by
  intro c hc
  unfold reprChars at hc
  by_cases h : n = 0
  · rw [if_pos h, List.mem_singleton] at hc
    subst hc
    rfl
  · rw [if_neg h] at hc
    rw [List.mem_map] at hc
    obtain ⟨d, hd, rfl⟩ := hc
    rw [List.mem_reverse] at hd
    exact digitChar_isDigit (Nat.digits_lt_base (by norm_num) hd)

/-- A decimal rendering is never empty. -/
lemma reprChars_ne_nil (n : Nat) : reprChars n ≠ [] := by
  unfold reprChars
  by_cases h : n = 0
  · simp [h]
  · rw [if_neg h]
    simp [Nat.digits_ne_nil_iff_ne_zero.mpr h]

/-- A digit character is not a dash. -/
lemma isDigit_ne_dash {c : Char} (h : c.isDigit = true) : c ≠ '-' := by
  intro heq
  rw [heq] at h
  exact absurd h (by decide)

/-- No dash occurs in a decimal rendering. -/
lemma dash_not_mem_reprChars (n : Nat) : '-' ∉ reprChars n :=
  fun hmem => isDigit_ne_dash (reprChars_isDigit n _ hmem) rfl

/-- Splitting a dash-free list yields that list as the only group. -/
lemma split_dash_no_dash (a : List Char) (h : '-' ∉ a) : split_dash a = [a] := by
  induction a with
  | nil => rfl
  | cons c cs ih =>
    have hc : ¬ c = '-' := fun hce => h (hce ▸ List.mem_cons_self c cs)
    have hcs : '-' ∉ cs := fun hm => h (List.mem_cons_of_mem _ hm)
    rw [split_dash, if_neg hc, ih hcs]

/-- Splitting peels a leading dash-free group off at the first dash. -/
lemma split_dash_append (a r : List Char) (h : '-' ∉ a) :
    split_dash (a ++ '-' :: r) = a :: split_dash r := by
  induction a with
  | nil => simp [split_dash]
  | cons c cs ih =>
    have hc : ¬ c = '-' := fun hce => h (hce ▸ List.mem_cons_self c cs)
    have hcs : '-' ∉ cs := fun hm => h (List.mem_cons_of_mem _ hm)
    rw [List.cons_append, split_dash, if_neg hc, ih hcs]

lemma parseDigitsFrom_append (u v : List Char) :
    ∀ acc, parseDigitsFrom (u ++ v) acc =
      (parseDigitsFrom u acc).bind (fun a => parseDigitsFrom v a) := by
  induction u with
  | nil => intro acc; simp [parseDigitsFrom]
  | cons c cs ih =>
    intro acc
    rw [List.cons_append, parseDigitsFrom, parseDigitsFrom]
    by_cases hc : c.isDigit = true
    · rw [if_pos hc, if_pos hc, ih]
    · rw [if_neg hc, if_neg hc]
      rfl

/-- Parsing the printed digits of a digit list, most significant first,
reconstructs the positional value. -/
lemma parseDigitsFrom_rev (l : List Nat) (hl : ∀ d ∈ l, d < 10) :
    ∀ acc, parseDigitsFrom ((l.reverse).map Nat.digitChar) acc =
      some (acc * 10 ^ l.length + Nat.ofDigits 10 l) := by
  induction l with
  | nil =>
    intro acc
    simp [parseDigitsFrom, Nat.ofDigits]
  | cons d ds ih =>
    intro acc
    have hd : d < 10 := hl d (List.mem_cons_self d ds)
    have hds : ∀ x ∈ ds, x < 10 := fun x hx => hl x (List.mem_cons_of_mem _ hx)
    rw [List.reverse_cons, List.map_append, parseDigitsFrom_append, ih hds acc]
    simp only [Option.some_bind, List.map_cons, List.map_nil, parseDigitsFrom,
      if_pos (digitChar_isDigit hd), digitChar_toNat hd, Nat.ofDigits_cons,
      List.length_cons, pow_succ]
    congr 1
    ring

/-- Parsing a decimal rendering recovers the number. -/
lemma parseDigits_reprChars (n : Nat) : parseDigits (reprChars n) = some n := by
  by_cases h : n = 0
  · subst h
    rfl
  · unfold parseDigits
    rw [if_neg (by simp [List.isEmpty_iff, reprChars_ne_nil n])]
    unfold reprChars
    rw [if_neg h]
    rw [parseDigitsFrom_rev (Nat.digits 10 n)
      (fun d hd => Nat.digits_lt_base (by norm_num) hd) 0]
    rw [Nat.ofDigits_digits]
    simp

/-- `int()` of a decimal rendering recovers the number. -/
lemma python_int_reprChars (n : Nat) : python_int (reprChars n) = some (n : Int) := by
  have hne := reprChars_ne_nil n
  have hdig := reprChars_isDigit n
  have hrt := parseDigits_reprChars n
  cases hrc : reprChars n with
  | nil => exact absurd hrc hne
  | cons c cs =>
    rw [hrc] at hrt
    have hc : ¬ c = '-' :=
      isDigit_ne_dash (hdig c (hrc ▸ List.mem_cons_self c cs))
    rw [python_int, if_neg hc, hrt]
    rfl

/-- `toString` of a non-negative integer is the decimal rendering of its
absolute value. -/
lemma toString_int_nonneg {n : Int} (h : 0 ≤ n) : toString n = Nat.repr n.toNat := by
  cases n with
  | ofNat k => rfl
  | negSucc k => exact absurd h (by exact of_decide_eq_false rfl)

/-- The character data of a serialized tile identifier. -/
lemma tileFormat_data {z x y : Int} (hz : 0 ≤ z) (hx : 0 ≤ x) (hy : 0 ≤ y) :
    (tileFormat z x y).data =
      reprChars z.toNat ++ '-' :: (reprChars x.toNat ++ '-' :: reprChars y.toNat) := by
  unfold tileFormat
  rw [toString_int_nonneg hz, toString_int_nonneg hx, toString_int_nonneg hy]
  simp [repr_data]

/-- Roundtrip: the consumer parse recovers the serialized coordinates. -/
lemma parse_tileFormat {z x y : Int} (hz : 0 ≤ z) (hx : 0 ≤ x) (hy : 0 ≤ y) :
    parse_tile_ind (tileFormat z x y) = some (z, x, y) := by
  unfold parse_tile_ind
  rw [tileFormat_data hz hx hy,
    split_dash_append _ _ (dash_not_mem_reprChars z.toNat),
    split_dash_append _ _ (dash_not_mem_reprChars x.toNat),
    split_dash_no_dash _ (dash_not_mem_reprChars y.toNat)]
  simp only [python_int_reprChars]
  rw [Int.toNat_of_nonneg hz, Int.toNat_of_nonneg hx, Int.toNat_of_nonneg hy]

/-- Injectivity of serialization on non-negative coordinates. -/
lemma tileFormat_inj {z x y z' x' y' : Int} (hz : 0 ≤ z) (hx : 0 ≤ x) (hy : 0 ≤ y)
    (hz' : 0 ≤ z') (hx' : 0 ≤ x') (hy' : 0 ≤ y')
    (h : tileFormat z x y = tileFormat z' x' y') : z = z' ∧ x = x' ∧ y = y' := by
  have h1 := parse_tileFormat hz hx hy
  rw [h, parse_tileFormat hz' hx' hy'] at h1
  simp only [Option.some.injEq, Prod.mk.injEq] at h1
  exact ⟨h1.1.symm, h1.2.1.symm, h1.2.2.symm⟩

/-- Base-`p` block decomposition is unique. -/
lemma mul_add_inj {p a b i j : Int} (hp : 0 < p) (hi0 : 0 ≤ i) (hi : i < p)
    (hj0 : 0 ≤ j) (hj : j < p) (h : a * p + i = b * p + j) : a = b ∧ i = j := by
  have hab : a = b := by
    by_contra hne
    rcases lt_or_gt_of_ne hne with hlt | hgt
    · have h2 : (a + 1) * p ≤ b * p :=
        mul_le_mul_of_nonneg_right (by omega) hp.le
      rw [add_mul, one_mul] at h2
      linarith
    · have h2 : (b + 1) * p ≤ a * p :=
        mul_le_mul_of_nonneg_right (by omega) hp.le
      rw [add_mul, one_mul] at h2
      linarith
  refine ⟨hab, ?_⟩
  rw [hab] at h
  linarith

/-- Serialized coordinates of a valid tile are non-negative. -/
lemma expandT_coord_nonneg {t : Tile} (ht : ValidTile t) (d : Nat) (i : Nat)
    (_hi : i < 2 ^ d) : 0 ≤ t.tms_x * ((2 ^ d : Nat) : Int) + (i : Int) := by
  have h1 : 0 ≤ t.tms_x := ht.2.1
  positivity

/-- Expansions of two distinct same-zoom valid tiles share no
serialized identifier. -/
lemma expand_disjoint (m : Int) {u v : Tile} (hu : ValidTile u) (hv : ValidTile v)
    (hzz : u.zoom = v.zoom) (hne : u.tms_x ≠ v.tms_x ∨ u.tms_y ≠ v.tms_y) :
    ∀ s, s ∈ expandT m u → s ∈ expandT m v → False := by
  intro s hsu hsv
  obtain ⟨i, j, hi, hj, hfu⟩ := (expandT_mem m ((m - u.zoom).toNat) u s rfl).mp hsu
  obtain ⟨i', j', hi', hj', hfv⟩ :=
    (expandT_mem m ((m - u.zoom).toNat) v s (by rw [hzz])).mp hsv
  have heq := hfu.symm.trans hfv
  have hP : (0 : Int) < ((2 ^ (m - u.zoom).toNat : Nat) : Int) := by positivity
  have hargs := tileFormat_inj
    (by have := hu.1; omega)
    (expandT_coord_nonneg hu _ _ hi)
    (by have := hu.2.2.2.1; positivity)
    (by have := hv.1; omega)
    (expandT_coord_nonneg hv _ _ hi')
    (by have := hv.2.2.2.1; positivity)
    heq
  obtain ⟨-, hxeq, hyeq⟩ := hargs
  have hx := mul_add_inj hP (by positivity) (by exact_mod_cast hi) (by positivity)
    (by exact_mod_cast hi') hxeq
  have hy := mul_add_inj hP (by positivity) (by exact_mod_cast hj) (by positivity)
    (by exact_mod_cast hj') hyeq
  rcases hne with hne | hne
  · exact hne hx.1
  · exact hne hy.1

/-- The expansion of a valid tile has no duplicate identifiers. -/
lemma expandT_nodup (m : Int) :
    ∀ (d : Nat) (t : Tile), ValidTile t → (m - t.zoom).toNat = d →
      (expandT m t).Nodup := by
  intro d
  induction d with
  | zero =>
    intro t ht h
    rw [expandT_leaf (by omega)]
    exact List.nodup_singleton _
  | succ e ih =>
    intro t ht h
    have hz : ¬ m ≤ t.zoom := by omega
    have hce : ∀ a b : Int, (m - (Tile.mk a b (t.zoom + 1)).zoom).toNat = e := by
      intro a b
      show (m - (t.zoom + 1)).toNat = e
      omega
    have hcv := quadTiles_valid ht
    simp only [quadTiles, List.mem_cons, List.not_mem_nil, or_false] at hcv
    have hv1 : ValidTile ⟨t.tms_x * 2 + 1, t.tms_y * 2 + 1, t.zoom + 1⟩ :=
      hcv _ (Or.inr (Or.inr (Or.inr rfl)))
    have hv2 : ValidTile ⟨t.tms_x * 2 + 1, t.tms_y * 2, t.zoom + 1⟩ :=
      hcv _ (Or.inr (Or.inr (Or.inl rfl)))
    have hv3 : ValidTile ⟨t.tms_x * 2, t.tms_y * 2 + 1, t.zoom + 1⟩ :=
      hcv _ (Or.inr (Or.inl rfl))
    have hv4 : ValidTile ⟨t.tms_x * 2, t.tms_y * 2, t.zoom + 1⟩ :=
      hcv _ (Or.inl rfl)
    rw [expandT_node' hz]
    refine List.Nodup.append (List.Nodup.append (List.Nodup.append
      (ih _ hv1 (hce _ _)) (ih _ hv2 (hce _ _)) ?_)
      (ih _ hv3 (hce _ _)) ?_)
      (ih _ hv4 (hce _ _)) ?_
    · intro s hs1 hs2
      exact expand_disjoint m hv1 hv2 rfl (Or.inr (by simp)) s hs1 hs2
    · intro s hs hs3
      rcases List.mem_append.mp hs with hs1 | hs2
      · exact expand_disjoint m hv1 hv3 rfl (Or.inl (by simp)) s hs1 hs3
      · exact expand_disjoint m hv2 hv3 rfl (Or.inl (by simp)) s hs2 hs3
    · intro s hs hs4
      rcases List.mem_append.mp hs with hs | hs3
      · rcases List.mem_append.mp hs with hs1 | hs2
        · exact expand_disjoint m hv1 hv4 rfl (Or.inl (by simp)) s hs1 hs4
        · exact expand_disjoint m hv2 hv4 rfl (Or.inl (by simp)) s hs2 hs4
      · exact expand_disjoint m hv3 hv4 rfl (Or.inr (by simp)) s hs3 hs4

/-- C1: for every valid top tile (zoom in `[0, 19]`, coordinates in
range) and every `maxZoom ≥ zoom`, `get_tile_pyramid` succeeds and the
returned collection has exactly `4 ^ (maxZoom - zoom)` identifier
strings, no duplicates (so its cardinality as a set is also
`4 ^ (maxZoom - zoom)`), and every element serializes a tile at zoom
`maxZoom` whose coordinates lie in the descendant block
`[x * 2 ^ d, (x + 1) * 2 ^ d - 1] × [y * 2 ^ d, (y + 1) * 2 ^ d - 1]`. -/
theorem claim1_pyramid_leaves (x y z maxZoom : Int)
    (hv : ValidTile ⟨x, y, z⟩) (_hz19 : z ≤ 19) (hm : z ≤ maxZoom) :
    ∃ out : List String,
      get_tile_pyramid x y z maxZoom = some (Except.ok out) ∧
      out.length = 4 ^ (maxZoom - z).toNat ∧
      out.Nodup ∧
      out.toFinset.card = 4 ^ (maxZoom - z).toNat ∧
      ∀ s ∈ out, ∃ i j : Nat,
        i < 2 ^ (maxZoom - z).toNat ∧ j < 2 ^ (maxZoom - z).toNat ∧
        s = tileFormat maxZoom
          (x * ((2 ^ (maxZoom - z).toNat : Nat) : Int) + (i : Int))
          (y * ((2 ^ (maxZoom - z).toNat : Nat) : Int) + (j : Int)) := by
  have hlen := expandT_length maxZoom ((maxZoom - z).toNat) ⟨x, y, z⟩ rfl
  have hnd := expandT_nodup maxZoom ((maxZoom - z).toNat) ⟨x, y, z⟩ hv rfl
  refine ⟨expandT maxZoom ⟨x, y, z⟩, get_tile_pyramid_ok maxZoom hv, hlen, hnd,
    by rw [List.toFinset_card_of_nodup hnd, hlen], ?_⟩
  intro s hs
  obtain ⟨i, j, hi, hj, hf⟩ :=
    (expandT_mem maxZoom ((maxZoom - z).toNat) ⟨x, y, z⟩ s rfl).mp hs
  refine ⟨i, j, hi, hj, ?_⟩
  rw [hf]
  congr 1
  show z + (((maxZoom - z).toNat : Nat) : Int) = maxZoom
  omega

/-- C1 witness: the spec's concrete scenario `(x=5, y=314, zoom=16)`,
`maxZoom = 18`. -/
theorem claim1_pyramid_leaves_witness :
    ∃ out : List String,
      get_tile_pyramid 5 314 16 18 = some (Except.ok out) ∧
      out.length = 4 ^ ((18 : Int) - 16).toNat ∧
      out.Nodup ∧
      out.toFinset.card = 4 ^ ((18 : Int) - 16).toNat ∧
      ∀ s ∈ out, ∃ i j : Nat,
        i < 2 ^ ((18 : Int) - 16).toNat ∧ j < 2 ^ ((18 : Int) - 16).toNat ∧
        s = tileFormat 18
          (5 * ((2 ^ ((18 : Int) - 16).toNat : Nat) : Int) + (i : Int))
          (314 * ((2 ^ ((18 : Int) - 16).toNat : Nat) : Int) + (j : Int)) :=
  claim1_pyramid_leaves 5 314 16 18 (by decide) (by decide) (by decide)

/-- C2: for every valid tile, `_get_quadrant_tiles` returns exactly four
mutually distinct tiles at zoom `z + 1` with coordinates
`{(2x, 2y), (2x, 2y+1), (2x+1, 2y), (2x+1, 2y+1)}`; concretely, for
`(x=1412, y=3520, zoom=17)` the result is the set
`{(2825,7041,18), (2825,7040,18), (2824,7041,18), (2824,7040,18)}`. -/
theorem claim2_quadrant_children :
    (∀ t : Tile, ValidTile t →
      get_quadrant_tiles t = Except.ok (quadTiles t) ∧
      (quadTiles t).length = 4 ∧
      (quadTiles t).Nodup ∧
      (∀ c ∈ quadTiles t, c.zoom = t.zoom + 1) ∧
      (quadTiles t).toFinset =
        {⟨t.tms_x * 2, t.tms_y * 2, t.zoom + 1⟩,
         ⟨t.tms_x * 2, t.tms_y * 2 + 1, t.zoom + 1⟩,
         ⟨t.tms_x * 2 + 1, t.tms_y * 2, t.zoom + 1⟩,
         ⟨t.tms_x * 2 + 1, t.tms_y * 2 + 1, t.zoom + 1⟩}) ∧
    (∃ l : List Tile, get_quadrant_tiles ⟨1412, 3520, 17⟩ = Except.ok l ∧
      l.toFinset =
        {⟨2825, 7041, 18⟩, ⟨2825, 7040, 18⟩, ⟨2824, 7041, 18⟩, ⟨2824, 7040, 18⟩}) := by
  constructor
  · intro t ht
    refine ⟨get_quadrant_tiles_ok ht, rfl, ?_, ?_, ?_⟩
    · simp [quadTiles, Tile.mk.injEq]
    · intro c hc
      simp only [quadTiles, List.mem_cons, List.not_mem_nil, or_false] at hc
      rcases hc with rfl | rfl | rfl | rfl <;> rfl
    · simp [quadTiles]
  · exact ⟨quadTiles ⟨1412, 3520, 17⟩, get_quadrant_tiles_ok (by decide), by decide⟩

/-- C2 witness: the universal part applied to the concrete tile
`(x=1412, y=3520, zoom=17)`. -/
theorem claim2_quadrant_children_witness :
    get_quadrant_tiles ⟨1412, 3520, 17⟩ = Except.ok (quadTiles ⟨1412, 3520, 17⟩) ∧
    (quadTiles (⟨1412, 3520, 17⟩ : Tile)).Nodup :=
  ⟨(claim2_quadrant_children.1 ⟨1412, 3520, 17⟩ (by decide)).1,
   (claim2_quadrant_children.1 ⟨1412, 3520, 17⟩ (by decide)).2.2.1⟩

/-- C3: on a valid tile with `maxZoom` equal to the tile's zoom, the
pyramid is the single serialized input tile. -/
theorem claim3_degenerate (x y z : Int) (hv : ValidTile ⟨x, y, z⟩) :
    get_tile_pyramid x y z z = some (Except.ok [tileFormat z x y]) := by
  rw [get_tile_pyramid_ok z hv, expandT_leaf (le_refl z)]

/-- C3 witness at `(x=5, y=314, zoom=16)`. -/
theorem claim3_degenerate_witness :
    get_tile_pyramid 5 314 16 16 = some (Except.ok [tileFormat 16 5 314]) :=
  claim3_degenerate 5 314 16 (by decide)

/-- C4 (amended): `get_tile_pyramid` raises an error if and only if the
input tile's `x` or `y` is outside `[0, 2 ^ zoom - 1]` (for a negative
zoom that range is empty); neither `maxZoom < zoom` nor `zoom > 19`
raises. -/
theorem claim4_invalid_input_error (x y z maxZoom : Int) :
    (∃ e, get_tile_pyramid x y z maxZoom = some (Except.error e)) ↔
      ¬ ValidTile ⟨x, y, z⟩ := by
  constructor
  · rintro ⟨e, he⟩ hv
    rw [get_tile_pyramid_ok maxZoom hv] at he
    simp at he
  · intro hv
    obtain ⟨e, he⟩ := from_tms_error hv
    refine ⟨e, ?_⟩
    unfold get_tile_pyramid
    rw [he]

/-- C4 counterexample: the input zoom 20 is outside the claimed valid
range `[0, 19]`, yet the call returns a result instead of raising. -/
theorem claim4_counterexample :
    get_tile_pyramid 0 0 20 20 = some (Except.ok ["20-0-0"]) := by decide

/-- C8: on a valid top tile with `maxZoom ≥ zoom` the depth-first loop
terminates: the computed fuel bound `5 ^ (maxZoom - zoom)` (an upper
bound on the number of iterations) suffices, and so does any larger
fuel, always yielding the same successful result. -/
theorem claim8_termination (x y z maxZoom : Int) (hv : ValidTile ⟨x, y, z⟩)
    (_hm : z ≤ maxZoom) :
    (get_tile_pyramid x y z maxZoom).isSome = true ∧
    ∀ fuel : Nat, pyrFuel maxZoom z ≤ fuel →
      pyramidLoop fuel maxZoom [⟨x, y, z⟩] [] =
        some (Except.ok (expandT maxZoom ⟨x, y, z⟩)) := by
  constructor
  · rw [get_tile_pyramid_ok maxZoom hv]
    rfl
  · intro fuel hf
    have hsm : stackMeasure maxZoom [⟨x, y, z⟩] = pyrFuel maxZoom z := by
      simp [stackMeasure, pyrFuel]
    have := pyramidLoop_eq maxZoom fuel [⟨x, y, z⟩] []
      (by intro u hu; simp only [List.mem_singleton] at hu; subst hu; exact hv)
      (by omega)
    simpa using this

/-- C8 witness at `(x=1412, y=3520, zoom=17)`, `maxZoom = 18`. -/
theorem claim8_termination_witness :
    (get_tile_pyramid 1412 3520 17 18).isSome = true ∧
    ∀ fuel : Nat, pyrFuel 18 17 ≤ fuel →
      pyramidLoop fuel 18 [⟨1412, 3520, 17⟩] [] =
        some (Except.ok (expandT 18 ⟨1412, 3520, 17⟩)) :=
  claim8_termination 1412 3520 17 18 (by decide) (by decide)

/-- C9: two invocations of `get_tile_pyramid` on the same input yield
result collections that are equal as sets of identifier strings. -/
theorem claim9_two_runs (x y z maxZoom : Int) (out1 out2 : List String)
    (h1 : get_tile_pyramid x y z maxZoom = some (Except.ok out1))
    (h2 : get_tile_pyramid x y z maxZoom = some (Except.ok out2)) :
    out1.toFinset = out2.toFinset := by
  rw [h1] at h2
  simp only [Option.some.injEq, Except.ok.injEq] at h2
  rw [h2]

/-- C9 witness: the degenerate pyramid at `(0, 0, 0)`. -/
theorem claim9_two_runs_witness :
    (["0-0-0"] : List String).toFinset = (["0-0-0"] : List String).toFinset :=
  claim9_two_runs 0 0 0 0 ["0-0-0"] ["0-0-0"] (by decide) (by decide)

/-- C10: when `maxZoom < zoom` (the documented precondition is violated)
`get_tile_pyramid` does not raise: it returns the single serialized
input tile, because the leaf test uses `zoom >= max_zoom`. -/
theorem claim10_over_zoom (x y z maxZoom : Int) (hv : ValidTile ⟨x, y, z⟩)
    (hm : maxZoom < z) :
    get_tile_pyramid x y z maxZoom = some (Except.ok [tileFormat z x y]) := by
  rw [get_tile_pyramid_ok maxZoom hv, expandT_leaf (le_of_lt hm)]

/-- C10 witness: a valid zoom-1 tile with `maxZoom = 0`. -/
theorem claim10_over_zoom_witness :
    get_tile_pyramid 1 0 1 0 = some (Except.ok [tileFormat 1 1 0]) :=
  claim10_over_zoom 1 0 1 0 (by decide) (by decide)

/-- C7: serialization with `'{z}-{x}-{y}'` round-trips through the
consumer parse (split on dashes, three integers in the order zoom, x,
y) on every valid tile, and is injective: distinct valid coordinates
give distinct identifier strings. -/
theorem claim7_roundtrip :
    (∀ x y z : Int, ValidTile ⟨x, y, z⟩ →
      parse_tile_ind (tileFormat z x y) = some (z, x, y)) ∧
    (∀ x y z x' y' z' : Int, ValidTile ⟨x, y, z⟩ → ValidTile ⟨x', y', z'⟩ →
      (x, y, z) ≠ (x', y', z') → tileFormat z x y ≠ tileFormat z' x' y') := by
  constructor
  · intro x y z hv
    exact parse_tileFormat hv.1 hv.2.1 hv.2.2.2.1
  · intro x y z x' y' z' hv hv' hne heq
    obtain ⟨hz, hx, hy⟩ :=
      tileFormat_inj hv.1 hv.2.1 hv.2.2.2.1 hv'.1 hv'.2.1 hv'.2.2.2.1 heq
    exact hne (by simp only [Prod.mk.injEq]; exact ⟨hx, hy, hz⟩)

/-- C7 witness: parse of the serialized tile `(1412, 3520, 17)`. -/
theorem claim7_roundtrip_witness :
    parse_tile_ind (tileFormat 17 1412 3520) = some (17, 1412, 3520) :=
  claim7_roundtrip.1 1412 3520 17 (by decide)

/-- C5: `get_pixel_area` fails exactly when the latitude is outside
`[-90, 90]` or the zoom is outside `[0, 19]`; on valid input it returns
`(156543.03 * cos(latitude in radians) / 2 ** zoom) ** 2`; at latitude 0
and zoom 0 it returns `156543.03 ** 2`, and at latitude 91 or zoom 20 it
fails. -/
theorem claim5_pixel_area :
    (∀ (lat : ℚ) (zoom : Int),
      (∃ e, get_pixel_area lat zoom = Except.error e) ↔
        (lat < -90 ∨ 90 < lat ∨ zoom < 0 ∨ 19 < zoom)) ∧
    (∀ (lat : ℚ) (zoom : Int), -90 ≤ lat → lat ≤ 90 → 0 ≤ zoom → zoom ≤ 19 →
      get_pixel_area lat zoom =
        Except.ok ((156543.03 * Real.cos ((lat : ℝ) * Real.pi / 180) / 2 ^ zoom.toNat) ^ 2)) ∧
    get_pixel_area 0 0 = Except.ok ((156543.03 : ℝ) ^ 2) ∧
    (∃ e, get_pixel_area 91 0 = Except.error e) ∧
    (∃ e, get_pixel_area 0 20 = Except.error e) := by
  have herr : ∀ (lat : ℚ) (zoom : Int),
      (∃ e, get_pixel_area lat zoom = Except.error e) ↔
        (lat < -90 ∨ 90 < lat ∨ zoom < 0 ∨ 19 < zoom) := by
    intro lat zoom
    unfold get_pixel_area
    split_ifs with h1 h2
    · simp only [Except.error.injEq]
      constructor
      · intro _
        rcases h1 with h | h
        · exact Or.inl h
        · exact Or.inr (Or.inl h)
      · intro _
        exact ⟨_, rfl⟩
    · simp only [Except.error.injEq]
      constructor
      · intro _
        rcases h2 with h | h
        · exact Or.inr (Or.inr (Or.inl h))
        · exact Or.inr (Or.inr (Or.inr h))
      · intro _
        exact ⟨_, rfl⟩
    · constructor
      · rintro ⟨e, he⟩
        exact absurd he (by simp)
      · rintro (h | h | h | h)
        · exact absurd (Or.inl h) h1
        · exact absurd (Or.inr h) h1
        · exact absurd (Or.inl h) h2
        · exact absurd (Or.inr h) h2
  refine ⟨herr, ?_, ?_, ?_, ?_⟩
  · intro lat zoom hl1 hl2 hz1 hz2
    unfold get_pixel_area
    rw [if_neg (by push_neg; exact ⟨hl1, hl2⟩), if_neg (by push_neg; exact ⟨hz1, hz2⟩)]
  · unfold get_pixel_area
    rw [if_neg (by norm_num), if_neg (by norm_num)]
    norm_num
  · exact (herr 91 0).mpr (by norm_num)
  · exact (herr 0 20).mpr (by norm_num)

/-- C5 witness: the valid-input formula at latitude 45, zoom 3. -/
theorem claim5_pixel_area_witness :
    get_pixel_area 45 3 =
      Except.ok ((156543.03 * Real.cos (((45 : ℚ) : ℝ) * Real.pi / 180) /
        2 ^ (3 : Int).toNat) ^ 2) :=
  claim5_pixel_area.2.1 45 3 (by norm_num) (by norm_num) (by norm_num) (by norm_num)

/-- C6: the canonical task serialization is invariant under any
permutation of the input's task list, hence two documents with the same
(taskID, geometry) pairs in different order produce byte-identical
output strings (and therefore identical content hashes). -/
theorem claim6_canonicalization (t1 t2 : List TmTask) (h : t1.Perm t2) :
    get_stripped_geojson_tasks t1 = get_stripped_geojson_tasks t2 := by
  unfold get_stripped_geojson_tasks
  congr 1
  apply List.eq_of_perm_of_sorted (r := (· ≤ ·))
  · exact (List.mergeSort_perm _ _).trans
      ((h.map strip_task).trans (List.mergeSort_perm _ _).symm)
  · exact List.sorted_mergeSort' _
  · exact List.sorted_mergeSort' _

/-- C6 witness: two two-task documents in opposite order. -/
theorem claim6_canonicalization_witness :
    get_stripped_geojson_tasks
        [⟨"338", "geomA"⟩, ⟨"339", "geomB"⟩] =
      get_stripped_geojson_tasks
        [⟨"339", "geomB"⟩, ⟨"338", "geomA"⟩] :=
  claim6_canonicalization _ _ (by decide)
